import Mathlib

/-!
# Verification of the DeepDL BPE segmenter (`src/DeepDL/apply_bpe.py`)

A shallow embedding of the byte-pair-encoding application code.  Python
strings are modelled as `List Char`, tuples/lists of subword symbols as
`List Sym`, the per-tokenizer cache dict as an association list, the
merge-rank dict and the reverse (concatenation → pair) dict as association
lists with first-match lookup, and the `random.random()` stream used for
dropout as an explicit list of rationals (an exhausted stream draws `0`,
which never survives a positive dropout threshold).  Fallible paths
(`NotImplementedError`, `IndexError`, and the possible non-termination of
`recursive_split`, which is fuelled) are explicit constructors of the
result types.
-/

set_option maxRecDepth 4000

namespace DeepDL

/-- A Python string (a symbol / subword unit). -/
abbrev Sym := List Char

/-- The end-of-word marker literal `'</w>'` used by the merge loop. -/
def eow : Sym := ['<', '/', 'w', '>']

/-- The default separator `'@@'` from the `BPE` constructor. -/
def sepDefault : Sym := ['@', '@']

/-- The merge table `self.bpe_codes`: pair ↦ rank, first binding wins
(mirrors the reversed-enumerate dict construction). -/
abbrev CodesT := List ((Sym × Sym) × Nat)

/-- The reverse index `self.bpe_codes_reverse`: concatenation ↦ pair. -/
abbrev RevT := List (Sym × (Sym × Sym))

/-- The per-instance cache `self.cache`: original word ↦ result tuple. -/
abbrev Cache := List (Sym × List Sym)

/-- First-match lookup in the merge table (dict membership / indexing). -/
def codesLookup : CodesT → (Sym × Sym) → Option Nat
  | [], _ => none
  | (k, v) :: rest, p => if k = p then some v else codesLookup rest p

/-- First-match lookup in the reverse index. -/
def revLookup : RevT → Sym → Option (Sym × Sym)
  | [], _ => none
  | (k, v) :: rest, s => if k = s then some v else revLookup rest s

/-- First-match lookup in the cache. -/
def cacheLookup : Cache → Sym → Option (List Sym)
  | [], _ => none
  | (k, v) :: rest, w => if k = w then some v else cacheLookup rest w

/-- `cache[orig] = word` (dict assignment; lookup sees the new binding). -/
def cacheInsert (c : Cache) (k : Sym) (v : List Sym) : Cache := (k, v) :: c

/-- `glossaries_regex.match(orig)`: the compiled pattern `^(g1|...|gn)$`
matches the glossary words themselves and — since `$` also matches just
before a final newline — any glossary word followed by one trailing
newline (glossaries are modelled as literal patterns, the spec's
documented regex quirk aside); `None` when no glossaries were
configured. -/
def glossMatch : Option (List Sym) → Sym → Bool
  | none, _ => false
  | some gs, w => decide (w ∈ gs ∨ ∃ g ∈ gs, w = g ++ ['\n'])

/-- One draw from the random stream (`random.random()`). -/
def drawOne : List ℚ → ℚ × List ℚ
  | [] => (0, [])
  | r :: rest => (r, rest)

/-- The dropout-filtered candidate list of the merge loop:
`[(bpe_codes[pair], i, pair) for (i, pair) in enumerate(zip(word, word[1:]))
  if (not dropout or random.random() > dropout) and pair in bpe_codes]`.
A draw is consumed for every adjacent pair whenever dropout is nonzero
(Python evaluates the left conjunct first). -/
def candFilter (codes : CodesT) (d : ℚ) :
    List (Sym × Sym) → Nat → List ℚ → List (Nat × Nat × (Sym × Sym)) × List ℚ
  | [], _, rng => ([], rng)
  | p :: ps, i, rng =>
    if d = 0 then
      let rest := candFilter codes d ps (i + 1) rng
      match codesLookup codes p with
      | some rank => ((rank, i, p) :: rest.1, rest.2)
      | none => rest
    else
      let rest := candFilter codes d ps (i + 1) (drawOne rng).2
      match codesLookup codes p with
      | some rank =>
        (if (drawOne rng).1 > d then (rank, i, p) :: rest.1 else rest.1, rest.2)
      | none => rest

/-- `min(pairs)`: lexicographic minimum on `(rank, position)`; positions are
distinct so, as in the Python tuple comparison, the pair component is never
compared. -/
def pickMin : List (Nat × Nat × (Sym × Sym)) → Option (Nat × Nat × (Sym × Sym))
  | [] => none
  | c :: cs =>
    some (cs.foldl
      (fun best c' =>
        if c'.1 < best.1 ∨ (c'.1 = best.1 ∧ c'.2.1 < best.2.1) then c' else best)
      c)

/-- The in-pass merge scan: walk the winning positions left to right, skip a
position already consumed (`if j < i: continue`), otherwise copy
`word[i:j]`, emit the merged symbol and continue after the pair
(`i = j + 2`); finally copy `word[i:]`. -/
def applyMerges (w : List Sym) (merged : Sym) : List Nat → Nat → List Sym
  | [], i => w.drop i
  | j :: js, i =>
    if j < i then applyMerges w merged js i
    else ((w.drop i).take (j - i)) ++ merged :: applyMerges w merged js (j + 2)

/-- One iteration of the merge loop body: build the candidate list, pick the
best bigram, merge all its positions.  Returns `none` for the new word when
no candidates survive (`if not pairs: break`); the random stream is consumed
either way. -/
def bpeStep (codes : CodesT) (d : ℚ) (w : List Sym) (rng : List ℚ) :
    Option (List Sym) × List ℚ :=
  let res := candFilter codes d (w.zip w.tail) 0 rng
  match pickMin res.1 with
  | none => (none, res.2)
  | some best =>
    let merged := best.2.2.1 ++ best.2.2.2
    let positions :=
      res.1.filterMap (fun c => if c.2.2 = best.2.2 then some c.2.1 else none)
    (some (applyMerges w merged positions 0), res.2)

/-- The merge loop `while len(word) > 1: ...`.  The fuel argument only
bounds the iteration count; each productive step strictly shortens the word
(`bpeStep_length_lt` below), so `fuel = word.length` never runs out. -/
def bpeLoopF (codes : CodesT) (d : ℚ) : Nat → List Sym → List ℚ → List Sym × List ℚ
  | 0, w, rng => (w, rng)
  | fuel + 1, w, rng =>
    if w.length ≤ 1 then (w, rng)
    else
      match bpeStep codes d w rng with
      | (none, rng') => (w, rng')
      | (some w', rng') => bpeLoopF codes d fuel w' rng'

/-- Result of `recursive_split` / `check_vocab_and_split`. -/
inductive SplitRes where
  | sOk (out : List Sym)
  | sIdxErr
  | sFuelOut
  deriving DecidableEq

/-- `recursive_split(segment, bpe_codes, vocab, separator, final)`, fuelled:
`none` models a recursion that exceeds the fuel (the Python function can
genuinely recurse forever, see `c9_counterexample`).  The `try/except`
around the reverse lookup is the `none` branch of `revLookup`; in final
mode the right part is stripped of its last four characters
(`right = right[:-4]`) before the vocabulary tests. -/
def recursiveSplit : Nat → RevT → List Sym → Sym → Sym → Bool → Option (List Sym)
  | 0, _, _, _, _, _ => none
  | fuel + 1, rev, vs, sep, seg, final =>
    match revLookup rev (if final then seg ++ eow else seg) with
    | none => some [seg]
    | some (l, r) =>
      let r' := if final then r.take (r.length - 4) else r
      let leftPart? :=
        if (l ++ sep) ∈ vs then some [l] else recursiveSplit fuel rev vs sep l false
      let rightPart? :=
        if (final ∧ r' ∈ vs) ∨ (¬final ∧ (r' ++ sep) ∈ vs) then some [r']
        else recursiveSplit fuel rev vs sep r' final
      match leftPart?, rightPart? with
      | some a, some b => some (a ++ b)
      | _, _ => none

/-- The non-final loop of `check_vocab_and_split`: each segment is kept when
`segment + separator` is in the vocabulary, else recursively decomposed. -/
def cvsParts (fuel : Nat) (rev : RevT) (vs : List Sym) (sep : Sym) :
    List Sym → Option (List Sym)
  | [] => some []
  | seg :: rest =>
    let piece? :=
      if (seg ++ sep) ∈ vs then some [seg]
      else recursiveSplit fuel rev vs sep seg false
    match piece?, cvsParts fuel rev vs sep rest with
    | some p, some r => some (p ++ r)
    | _, _ => none

/-- `check_vocab_and_split(orig, bpe_codes_reverse, vocab, separator)`:
non-final segments are checked with the separator suffix, the last segment
bare and decomposed in final mode.  `orig[-1]` on an empty tuple is an
`IndexError`. -/
def checkVocabAndSplit (fuel : Nat) (orig : List Sym) (rev : RevT) (vs : List Sym)
    (sep : Sym) : SplitRes :=
  match orig.getLast? with
  | none => .sIdxErr
  | some lastSeg =>
    let finalPiece? :=
      if lastSeg ∈ vs then some [lastSeg]
      else recursiveSplit fuel rev vs sep lastSeg true
    match cvsParts fuel rev vs sep orig.dropLast, finalPiece? with
    | some ps, some fp => .sOk (ps ++ fp)
    | _, _ => .sFuelOut

/-- Result of the cache-free core of `encode` (everything from the version
dispatch onwards). -/
inductive MainRes where
  | ok (out : List Sym) (rng : List ℚ)
  | notImpl
  | indexErr
  | fuelOut
  deriving DecidableEq

/-- The merge loop, end-marker strip and vocabulary closure of `encode`,
starting from the materialised symbol sequence `w0`. -/
def mainFinish (fuel : Nat) (codes : CodesT) (rev : RevT) (vocab : Option (List Sym))
    (sep : Sym) (d : ℚ) (w0 : List Sym) (rng : List ℚ) : MainRes :=
  let res := bpeLoopF codes d w0.length w0 rng
  match res.1.getLast? with
  | none => .indexErr
  | some last =>
    let w2 :=
      if last = eow then res.1.dropLast
      else if eow.isSuffixOf last then res.1.dropLast ++ [last.take (last.length - 4)]
      else res.1
    match vocab with
    | none => .ok w2 res.2
    | some vs =>
      if vs = [] then .ok w2 res.2
      else
        match checkVocabAndSplit fuel w2 rev vs sep with
        | .sOk out => .ok out res.2
        | .sIdxErr => .indexErr
        | .sFuelOut => .fuelOut

/-- The version dispatch of `encode`: legacy `(0, 1)` appends the marker as
its own symbol, v2 `(0, 2)` suffixes it onto the last character (an
`IndexError` on the empty word), any other version raises
`NotImplementedError`. -/
def encodeMain (fuel : Nat) (orig : Sym) (codes : CodesT) (rev : RevT)
    (vocab : Option (List Sym)) (sep : Sym) (ver : List Int) (d : ℚ)
    (rng : List ℚ) : MainRes :=
  if ver = [0, 1] then
    mainFinish fuel codes rev vocab sep d (orig.map (fun ch => [ch]) ++ [eow]) rng
  else if ver = [0, 2] then
    match orig.getLast? with
    | none => .indexErr
    | some ch => mainFinish fuel codes rev vocab sep d
        (orig.dropLast.map (fun c => [c]) ++ [ch :: eow]) rng
  else .notImpl

/-- Result of `encode`: the returned subword sequence together with the
cache after the call and the remaining random stream, or the raised
exception. -/
inductive EncRes where
  | ok (out : List Sym) (cache : Cache) (rng : List ℚ)
  | notImpl
  | indexErr
  | fuelOut
  deriving DecidableEq

/-- `encode(orig, bpe_codes, bpe_codes_reverse, vocab, separator, version,
cache, glossaries_regex, dropout)`.  Cache reads are guarded by
`not dropout`; a glossary whole-word match and the final result are written
to the cache unconditionally; a single-character word is returned verbatim
without touching the cache. -/
def encode (fuel : Nat) (orig : Sym) (codes : CodesT) (rev : RevT)
    (vocab : Option (List Sym)) (sep : Sym) (ver : List Int) (cache : Cache)
    (gloss : Option (List Sym)) (d : ℚ) (rng : List ℚ) : EncRes :=
  match (if d = 0 then cacheLookup cache orig else none) with
  | some v => .ok v cache rng
  | none =>
    if glossMatch gloss orig then .ok [orig] (cacheInsert cache orig [orig]) rng
    else if orig.length = 1 then .ok [orig] cache rng
    else
      match encodeMain fuel orig codes rev vocab sep ver d rng with
      | .ok out rng' => .ok out (cacheInsert cache orig out) rng'
      | .notImpl => .notImpl
      | .indexErr => .indexErr
      | .fuelOut => .fuelOut

/-- The cache-independent part of an `encode` result (output and random
stream); used to state that dropout never reads the cache. -/
inductive EncView where
  | ok (out : List Sym) (rng : List ℚ)
  | notImpl
  | indexErr
  | fuelOut
  deriving DecidableEq

/-- Project an `EncRes` to its cache-independent part. -/
def EncRes.view : EncRes → EncView
  | .ok out _ rng => .ok out rng
  | .notImpl => .notImpl
  | .indexErr => .indexErr
  | .fuelOut => .fuelOut

/-! ## String helpers mirroring the Python methods used by the module -/

/-- The character set of `.strip('\r\n ')` / `.lstrip` / `.rstrip` calls. -/
def isStripWS (ch : Char) : Bool := ch == '\r' || ch == '\n' || ch == ' '

/-- Python whitespace for the bare `str.split()` used on the header line. -/
def isPyWS (ch : Char) : Bool :=
  ch == ' ' || ch == '\t' || ch == '\n' || ch == '\r' || ch == '\x0b' || ch == '\x0c'

/-- `s.split(sep)` for a single-character separator (keeps empty pieces;
`""` splits to `[""]`). -/
def splitOnChar (sep : Char) : List Char → List (List Char)
  | [] => [[]]
  | ch :: rest =>
    match splitOnChar sep rest with
    | [] => [[]]
    | h :: t => if ch = sep then [] :: h :: t else (ch :: h) :: t

/-- Helper for `splitWs`, accumulating the current word reversed. -/
def splitWsAux : List Char → List Char → List (List Char)
  | [], acc => if acc = [] then [] else [acc.reverse]
  | ch :: rest, acc =>
    if isPyWS ch then
      if acc = [] then splitWsAux rest [] else acc.reverse :: splitWsAux rest []
    else splitWsAux rest (ch :: acc)

/-- Bare `s.split()`: split on runs of whitespace, no empty pieces. -/
def splitWs (l : List Char) : List (List Char) := splitWsAux l []

/-- `s.rstrip('\n')`. -/
def rstripNl (l : List Char) : List Char :=
  (l.reverse.dropWhile (· == '\n')).reverse

/-- `s.rstrip('\r\n ')`. -/
def rstripWS (l : List Char) : List Char :=
  (l.reverse.dropWhile isStripWS).reverse

/-- `s.strip('\r\n ')`. -/
def stripWS (l : List Char) : List Char :=
  ((l.dropWhile isStripWS).reverse.dropWhile isStripWS).reverse

/-- `' '.join(items)`. -/
def joinSp (items : List Sym) : Sym := List.intercalate [' '] items

/-- One `readline()` on the file contents: the first line including its
newline, and the remaining contents. -/
def readLine1 : List Char → List Char × List Char
  | [] => ([], [])
  | ch :: rest =>
    if ch = '\n' then ([ch], rest)
    else
      let (a, b) := readLine1 rest
      (ch :: a, b)

/-- Index of the leftmost occurrence of `g` in `w` (`re.search` position for
a literal pattern). -/
def firstOcc (g : Sym) : Sym → Option Nat
  | [] => if g.isPrefixOf ([] : Sym) then some 0 else none
  | ch :: rest =>
    if g.isPrefixOf (ch :: rest) then some 0
    else (firstOcc g rest).map (· + 1)

/-- `re.split('({})'.format(g), word)` for a literal pattern `g`: the
alternating non-matching / matching pieces of the leftmost non-overlapping
occurrences, fuelled (`word.length + 1` is always enough for `g ≠ []`). -/
def splitKeepF : Nat → Sym → Sym → List Sym
  | 0, _, w => [w]
  | fuel + 1, g, w =>
    match firstOcc g w with
    | none => [w]
    | some i => w.take i :: g :: splitKeepF fuel g (w.drop (i + g.length))

/-- The regex split used by `isolate_glossary`. -/
def splitKeep (g w : Sym) : List Sym := splitKeepF (w.length + 1) g w

/-- `isolate_glossary(word, glossary)` for a literal (metacharacter-free)
glossary pattern.  `re.match('^' + glossary + '$', word)` succeeds when
the word is the glossary itself or the glossary followed by a single
trailing newline (`$` also matches just before a final newline).  Note
the Python conditional expression
`segments + [ending.strip('\r\n ')] if ending != '' else segments`
tests the ending before stripping it. -/
def isolate_glossary (word glossary : Sym) : List Sym :=
  if (word = glossary ∨ word = glossary ++ ['\n']) ∨ ¬ glossary <:+: word then [word]
  else
    let segments := splitKeep glossary word
    let ending := segments.getLastD []
    let body := (segments.dropLast).filter (· ≠ [])
    if ending ≠ [] then body ++ [stripWS ending] else body

/-- `BPE._isolate_glossaries`: fold `isolate_glossary` over the glossary
list, flat-mapping each segment through the next pattern. -/
def isolateGlossaries (glossaries : List Sym) (word : Sym) : List Sym :=
  glossaries.foldl (fun segs g => segs.flatMap (fun s => isolate_glossary s g)) [word]

/-! ## The tokenizer façade (`segment_tokens`, `segment`, `process_line`) -/

/-- Flat-map `encode` over the glossary-isolated pieces of one word,
threading the cache and the random stream
(`[out for segment in ... for out in encode(segment, ...)]`). -/
def encodePieces (fuel : Nat) (codes : CodesT) (rev : RevT) (vocab : Option (List Sym))
    (sep : Sym) (ver : List Int) (gloss : Option (List Sym)) (d : ℚ) :
    List Sym → Cache → List ℚ → EncRes
  | [], c, r => .ok [] c r
  | s :: rest, c, r =>
    match encode fuel s codes rev vocab sep ver c gloss d r with
    | .ok out c' r' =>
      match encodePieces fuel codes rev vocab sep ver gloss d rest c' r' with
      | .ok more c'' r'' => .ok (out ++ more) c'' r''
      | e => e
    | .notImpl => .notImpl
    | .indexErr => .indexErr
    | .fuelOut => .fuelOut

/-- `BPE.segment_tokens(tokens, dropout)`: skip empty tokens, isolate
glossaries, encode, and append the separator to every piece of a token's
expansion except the last (`new_word[-1]` on an empty expansion is an
`IndexError`). -/
def segmentTokens (fuel : Nat) (codes : CodesT) (rev : RevT) (vocab : Option (List Sym))
    (sep : Sym) (ver : List Int) (glossaries : List Sym) (gloss : Option (List Sym))
    (d : ℚ) : List Sym → Cache → List ℚ → EncRes
  | [], c, r => .ok [] c r
  | w :: ws, c, r =>
    if w = [] then segmentTokens fuel codes rev vocab sep ver glossaries gloss d ws c r
    else
      match encodePieces fuel codes rev vocab sep ver gloss d
          (isolateGlossaries glossaries w) c r with
      | .ok nw c' r' =>
        match nw.getLast? with
        | none => .indexErr
        | some lastPiece =>
          match segmentTokens fuel codes rev vocab sep ver glossaries gloss d ws c' r' with
          | .ok rest c'' r'' =>
            .ok ((nw.dropLast.map (· ++ sep)) ++ lastPiece :: rest) c'' r''
          | e => e
      | .notImpl => .notImpl
      | .indexErr => .indexErr
      | .fuelOut => .fuelOut

/-- Result of the line-level operations: the output string plus the cache
and random stream after the call, or the propagated exception. -/
inductive LineRes where
  | ok (out : List Char) (cache : Cache) (rng : List ℚ)
  | notImpl
  | indexErr
  | fuelOut
  deriving DecidableEq

/-- `BPE.segment(sentence, dropout)`: strip, split on single spaces,
segment the tokens and join the pieces with spaces. -/
def segment (fuel : Nat) (codes : CodesT) (rev : RevT) (vocab : Option (List Sym))
    (sep : Sym) (ver : List Int) (glossaries : List Sym) (gloss : Option (List Sym))
    (d : ℚ) (sentence : List Char) (c : Cache) (r : List ℚ) : LineRes :=
  match segmentTokens fuel codes rev vocab sep ver glossaries gloss d
      (splitOnChar ' ' (stripWS sentence)) c r with
  | .ok segs c' r' => .ok (joinSp segs) c' r'
  | .notImpl => .notImpl
  | .indexErr => .indexErr
  | .fuelOut => .fuelOut

/-- `BPE.process_line(line, dropout)`: copy the leading whitespace run,
segment the line, and copy the trailing whitespace run unless it is the
whole line. -/
def processLine (fuel : Nat) (codes : CodesT) (rev : RevT) (vocab : Option (List Sym))
    (sep : Sym) (ver : List Int) (glossaries : List Sym) (gloss : Option (List Sym))
    (d : ℚ) (line : List Char) (c : Cache) (r : List ℚ) : LineRes :=
  let lead := line.length - (line.dropWhile isStripWS).length
  match segment fuel codes rev vocab sep ver glossaries gloss d line c r with
  | .ok s c' r' =>
    let trail := line.length - (rstripWS line).length
    .ok (line.take lead ++ s ++
          (if trail ≠ 0 ∧ trail ≠ line.length then line.drop (line.length - trail) else []))
      c' r'
  | .notImpl => .notImpl
  | .indexErr => .indexErr
  | .fuelOut => .fuelOut

/-! ## `BPE.__init__`: loading the merge table -/

/-- Errors raised while constructing a `BPE` instance: the explicit
invalid-line exit, and the uncaught `ValueError` / `IndexError` a malformed
header line would raise while parsing the version number. -/
inductive InitErr where
  | formatError (lineNo : Nat) (content : Sym)
  | valueError
  | indexError
  deriving DecidableEq

/-- The loaded tokenizer state built by `BPE.__init__`. -/
structure BpeState where
  version : List Int
  codes : CodesT
  codesRev : RevT
  deriving DecidableEq

/-- `re.sub(r'(\.0+)*$', '', s)` — drop one trailing `.0+` block from the
reversed string, if present. -/
def dropZeroBlockRev (l : List Char) : Option (List Char) :=
  let zs := l.takeWhile (· = '0')
  match l.dropWhile (· = '0') with
  | ch :: rest => if zs ≠ [] ∧ ch = '.' then some rest else none
  | [] => none

/-- Iterate `dropZeroBlockRev` to remove the whole `(\.0+)*` suffix. -/
def stripVerRev : Nat → List Char → List Char
  | 0, l => l
  | fuel + 1, l =>
    match dropZeroBlockRev l with
    | none => l
    | some r => stripVerRev fuel r

/-- `re.sub(r'(\.0+)*$', '', s)`: remove the longest suffix made of
`.0...0` blocks. -/
def stripVersionSuffix (l : List Char) : List Char :=
  (stripVerRev l.length l.reverse).reverse

/-- Digits of `int(x)` after an initial digit: further digits with single
underscores allowed between digits only (`'1_0'` parses, `'1__0'`,
`'1_'` do not). -/
def digitsUAux : Nat → List Char → Option Nat
  | acc, [] => some acc
  | acc, [c] => if c.isDigit then some (10 * acc + (c.toNat - 48)) else none
  | acc, c :: c' :: rest =>
    if c = '_' then
      if c'.isDigit then digitsUAux (10 * acc + (c'.toNat - 48)) rest else none
    else if c.isDigit then digitsUAux (10 * acc + (c.toNat - 48)) (c' :: rest)
    else none

/-- One or more digits with single underscores between them. -/
def parseDigitsU : List Char → Option Nat
  | [] => none
  | c :: rest => if c.isDigit then digitsUAux (c.toNat - 48) rest else none

/-- `int(x)` for a version component: surrounding whitespace is stripped,
one optional `+`/`-` sign, then digits with single underscores between
them; `none` models the `ValueError` of anything else.  Digits are ASCII
(Python additionally accepts other Unicode decimal digits, and strips
other Unicode whitespace; the tokens parsed here come from `str.split()`
and carry no whitespace). -/
def parsePyInt (l : List Char) : Option Int :=
  match (l.dropWhile isPyWS).reverse.dropWhile isPyWS |>.reverse with
  | '+' :: rest => (parseDigitsU rest).map (fun n => (n : Int))
  | '-' :: rest => (parseDigitsU rest).map (fun n => -(n : Int))
  | t => (parseDigitsU t).map (fun n => (n : Int))

/-- Parse the version token: strip the `(\.0+)*` suffix, split on dots,
parse every component with `int()`. -/
def verParse (tok : Sym) : Option (List Int) :=
  (splitOnChar '.' (stripVersionSuffix tok)).mapM parsePyInt

/-- `firstline.startswith('#version:')`. -/
def hasHeader (content : List Char) : Bool :=
  "#version:".toList.isPrefixOf (readLine1 content).1

/-- The body whose lines become merge rules: everything after the header
line, or the whole contents when there is no header (`codes.seek(0)`). -/
def bodyOf (content : List Char) : List Char :=
  if hasHeader content then (readLine1 content).2 else content

/-- The line-number offset used in the invalid-line message. -/
def offsetOf (content : List Char) : Nat :=
  if hasHeader content then 2 else 1

/-- Whether the header line's version token parses
(`firstline.split()[-1]` exists and its components are numeric). -/
def headerOk (content : List Char) : Bool :=
  match (splitWs (readLine1 content).1).getLast? with
  | none => false
  | some tok => (verParse tok).isSome

/-- The `[tuple(item.strip('\r\n ').split(' ')) for (n, item) in
enumerate(codes.read().rstrip('\n').split('\n')) if (n < merges or
merges == -1)]` list. -/
def itemsOfBody (body : List Char) (merges : Int) : List (List Sym) :=
  (((splitOnChar '\n' (rstripNl body)).enum.filter
      (fun p => (p.1 : Int) < merges ∨ merges = -1)).map
    (fun p => splitOnChar ' ' (stripWS p.2)))

/-- The first item that does not have exactly two tokens, with its index
(the loop exits at the first invalid line). -/
def firstBadAux : Nat → List (List Sym) → Option (Nat × List Sym)
  | _, [] => none
  | i, it :: rest =>
    if it.length ≠ 2 then some (i, it) else firstBadAux (i + 1) rest

/-- Distinct pairs of the table, each kept at its last occurrence, in
file order: the reversal of the iteration order of the `bpe_codes` dict
(whose insertion runs over `reversed(list(enumerate(...)))`). -/
def keepLastOcc : List (Sym × Sym) → List (Sym × Sym)
  | [] => []
  | p :: rest => if p ∈ rest then keepLastOcc rest else p :: keepLastOcc rest

/-- The part of `BPE.__init__` after the version header: validate the
lines, assign ranks by position (first occurrence of a duplicate pair wins
via first-match lookup), and build the reverse index.  The Python reverse
index writes concatenations in `bpe_codes.items()` order — distinct pairs
by decreasing last occurrence — with last write winning, so a colliding
concatenation keeps the pair whose last occurrence is earliest in the
file; first-match lookup over `keepLastOcc pairs` reproduces this. -/
def bpeInitBody (ver : List Int) (offset : Nat) (body : List Char) (merges : Int) :
    Except InitErr BpeState :=
  let items := itemsOfBody body merges
  match firstBadAux 0 items with
  | some (i, item) => .error (.formatError (i + offset) (joinSp item))
  | none =>
    let pairs := items.filterMap (fun it =>
      match it with
      | [a, b] => some (a, b)
      | _ => none)
    let codes : CodesT := pairs.enum.map (fun p => (p.2, p.1))
    .ok ⟨ver, codes, (keepLastOcc pairs).map (fun p => (p.1 ++ p.2, p))⟩

/-- `BPE.__init__(codes, merges, ...)` on the raw file contents. -/
def bpeInit (content : List Char) (merges : Int) : Except InitErr BpeState :=
  if hasHeader content then
    match (splitWs (readLine1 content).1).getLast? with
    | none => .error .indexError
    | some tok =>
      match verParse tok with
      | none => .error .valueError
      | some ver => bpeInitBody ver 2 (readLine1 content).2 merges
  else bpeInitBody [0, 1] 1 content merges

/-- The version stored by a successful construction. -/
def initVersion? : Except InitErr BpeState → Option (List Int)
  | .ok st => some st.version
  | .error _ => none

/-- Whether construction succeeded. -/
def initOk : Except InitErr BpeState → Bool
  | .ok _ => true
  | .error _ => false

/-!
## Theorems

Each claim `Cn` of the specification gets one theorem (plus, where the
claim fails on the code, a concrete counterexample), below the shared
helper lemmas.
-/

/-- `C1` counterexample: with dropout `1 > 0` the call `encode("ab")`
writes its result into the cache — the cache is `[]` before and holds the
entry for `"ab"` after, so the cache mapping is not identical before and
after the call. -/
theorem c1_counterexample :
    encode 0 "ab".toList [] [] none sepDefault [0, 1] [] none 1 [] =
      .ok [['a'], ['b']] [("ab".toList, [['a'], ['b']])] [] ∧
    ([("ab".toList, [['a'], ['b']])] : Cache) ≠ ([] : Cache) := by
  decide

/-- `C2` counterexample: a merge table whose header declares version `0.3`
(outside legacy `(0,1)` and v2 `(0,2)`) loads successfully — construction
returns a usable table carrying version `(0,3)` — and the failure only
happens later, inside `encode`, as `NotImplementedError`. -/
theorem c2_counterexample :
    initVersion? (bpeInit "#version: 0.3\na b".toList (-1)) = some [0, 3] ∧
    encode 0 "ab".toList [((['a'], ['b']), 0)] [] none sepDefault [0, 3] [] none 0 [] =
      .notImpl := by
  decide

/-- `C3` counterexample: with dropout `0`, `encode("a")` returns `("a",)`
but the single-character short-circuit skips the cache write, so afterwards
the cache has no entry for `"a"` at all — the cache entry does not equal
the returned result. -/
theorem c3_counterexample :
    encode 0 "a".toList [] [] none sepDefault [0, 1] [] none 0 [] =
      .ok [['a']] [] [] ∧
    cacheLookup [] "a".toList = none := by
  decide

/-- `C5` counterexample: in `isolate("USA\r", "USA")` the trailing segment
`"\r"` strips to the empty string, yet it is kept as a final empty element
(the `ending != ''` test runs before stripping), not omitted as the claim
states. -/
theorem c5_counterexample :
    isolate_glossary "USA\r".toList "USA".toList = [['U', 'S', 'A'], []] ∧
    ([['U', 'S', 'A'], []] : List Sym) ≠ [['U', 'S', 'A']] := by
  decide

/-- `C7` counterexample: the line `"a b\tc"` consists of three
whitespace-separated tokens, yet merge-table construction accepts it
(splitting on single spaces only yields the two tokens `"a"` and
`"b\tc"`), so construction does not fail on every line that fails to split
into exactly two whitespace-separated tokens. -/
theorem c7_counterexample :
    initOk (bpeInit "a b\tc".toList (-1)) = true ∧
    (splitWs "a b\tc".toList).length = 3 := by
  decide

/-- `C8` counterexample: for the input word `"</w>"` under the legacy
convention, with merges `< /`, `</ w`, `</w >`, the returned subword
sequence is `("</w>",)` — the end-marker symbol itself appears verbatim as
an output element. -/
theorem c8_counterexample :
    encode 0 eow
        [((['<'], ['/']), 0), ((['<', '/'], ['w']), 1), ((['<', '/', 'w'], ['>']), 2)]
        [] none sepDefault [0, 1] [] none 0 [] =
      .ok [eow] [(eow, [eow])] [] ∧
    eow.isSuffixOf eow = true := by
  decide

/-- `C9` counterexample: a reverse index with the two entries
`"b</w>" ↦ ("b</", "w>")` and `"</w>" ↦ ("</", "w>")` makes
`recursive_split("b", ..., final=True)` recurse forever — it still has not
terminated after 100 recursion steps, far beyond the two-rule merge chain
length that the claim says bounds the recursion depth. -/
theorem c9_counterexample :
    recursiveSplit 100
        [(['b', '<', '/', 'w', '>'], (['b', '<', '/'], ['w', '>'])),
         (eow, (['<', '/'], ['w', '>']))]
        [] sepDefault ['b'] true = none ∧
    ([(['b', '<', '/', 'w', '>'], (['b', '<', '/'], ['w', '>'])),
      (eow, (['<', '/'], ['w', '>']))] : RevT).length = 2 := by
  decide

/-- `C1` (amended): with dropout `d > 0`, `encode` never reads a result
from the cache — its output and remaining random stream are independent of
the cache contents — but it does write: whenever a non-single-character
call returns, the result has been stored into the cache under the original
word (so the cache mapping is not identical before and after). -/
theorem c1_dropout_cache_amended (fuel : Nat) (orig : Sym) (codes : CodesT) (rev : RevT)
    (vocab : Option (List Sym)) (sep : Sym) (ver : List Int) (gloss : Option (List Sym))
    (d : ℚ) (rng : List ℚ) (c₁ c₂ : Cache) (hd : d ≠ 0) :
    (encode fuel orig codes rev vocab sep ver c₁ gloss d rng).view =
      (encode fuel orig codes rev vocab sep ver c₂ gloss d rng).view ∧
    (∀ out c' rng', orig.length ≠ 1 →
      encode fuel orig codes rev vocab sep ver c₁ gloss d rng = .ok out c' rng' →
      c' = cacheInsert c₁ orig out) := by
  unfold encode
  rw [if_neg hd, if_neg hd]
  by_cases hg : glossMatch gloss orig = true
  · simp only [hg, if_true]
    refine ⟨rfl, ?_⟩
    intro out c' rng' _ heq
    cases heq
    rfl
  · simp only [hg, if_false, Bool.false_eq_true]
    by_cases hl : orig.length = 1
    · simp only [hl, if_true]
      exact ⟨rfl, fun out c' rng' hlen _ => absurd rfl hlen⟩
    · simp only [hl, if_false]
      cases hm : encodeMain fuel orig codes rev vocab sep ver d rng
      · refine ⟨rfl, ?_⟩
        intro out c' rng' _ heq
        cases heq
        rfl
      · exact ⟨rfl, fun out c' rng' _ heq => by cases heq⟩
      · exact ⟨rfl, fun out c' rng' _ heq => by cases heq⟩
      · exact ⟨rfl, fun out c' rng' _ heq => by cases heq⟩

/-- `C1` witness: the amended theorem at dropout `1`, word `"ab"`, an
empty merge table, and two different initial caches. -/
theorem c1_dropout_cache_amended_witness :
    (encode 0 "ab".toList [] [] none sepDefault [0, 1]
        [(['z'], [['z']])] none 1 []).view =
      (encode 0 "ab".toList [] [] none sepDefault [0, 1] [] none 1 []).view ∧
    (("ab".toList, [['a'], ['b']]) :: [(['z'], [['z']])] : Cache) =
      cacheInsert [(['z'], [['z']])] "ab".toList [['a'], ['b']] := by
  refine ⟨(c1_dropout_cache_amended 0 "ab".toList [] [] none sepDefault [0, 1] none 1 []
      [(['z'], [['z']])] [] (by norm_num)).1, ?_⟩
  exact (c1_dropout_cache_amended 0 "ab".toList [] [] none sepDefault [0, 1] none 1 []
      [(['z'], [['z']])] [] (by norm_num)).2 [['a'], ['b']]
      (("ab".toList, [['a'], ['b']]) :: [(['z'], [['z']])]) [] (by decide) (by decide)

/-- `C3` (amended): with dropout `0` and fixed tables, `encode` is
deterministic — calling it again on the same word (with the cache and
random stream the first call left behind) returns the identical result and
leaves the cache unchanged — and for every word that is not a single
character the cache entry for the word equals the returned result.  (The
single-character short-circuit returns without writing the cache, see the
counterexample.) -/
theorem c3_determinism_amended (fuel : Nat) (orig : Sym) (codes : CodesT) (rev : RevT)
    (vocab : Option (List Sym)) (sep : Sym) (ver : List Int) (c : Cache)
    (gloss : Option (List Sym)) (rng : List ℚ) (out : List Sym) (c' : Cache)
    (rng' : List ℚ)
    (h : encode fuel orig codes rev vocab sep ver c gloss 0 rng = .ok out c' rng') :
    encode fuel orig codes rev vocab sep ver c' gloss 0 rng' = .ok out c' rng' ∧
    (orig.length ≠ 1 → cacheLookup c' orig = some out) := by
  unfold encode at h ⊢
  rw [if_pos rfl] at h ⊢
  cases hc : cacheLookup c orig with
  | some v =>
    rw [hc] at h
    cases h
    rw [hc]
    exact ⟨rfl, fun _ => rfl⟩
  | none =>
    rw [hc] at h
    by_cases hg : glossMatch gloss orig = true
    · simp only [hg, if_true] at h
      cases h
      simp [cacheInsert, cacheLookup]
    · simp only [hg, if_false, Bool.false_eq_true] at h
      by_cases hl : orig.length = 1
      · simp only [hl, if_true] at h
        cases h
        rw [hc]
        simp only [hg, if_false, Bool.false_eq_true, hl, if_true]
        exact ⟨trivial, fun hlen => absurd rfl hlen⟩
      · simp only [hl, if_false] at h
        cases hm : encodeMain fuel orig codes rev vocab sep ver 0 rng <;> rw [hm] at h <;>
          cases h
        simp [cacheInsert, cacheLookup]

/-- `C3` witness: the amended theorem at the two-character word `"ab"`
with an empty table: the second call reproduces the first call's result,
and the cache entry equals it. -/
theorem c3_determinism_amended_witness :
    encode 0 "ab".toList [] [] none sepDefault [0, 1]
        [("ab".toList, [['a'], ['b']])] none 0 [] =
      .ok [['a'], ['b']] [("ab".toList, [['a'], ['b']])] [] ∧
    cacheLookup [("ab".toList, [['a'], ['b']])] "ab".toList = some [['a'], ['b']] := by
  have h := c3_determinism_amended 0 "ab".toList [] [] none sepDefault [0, 1] [] none []
    [['a'], ['b']] [("ab".toList, [['a'], ['b']])] [] (by decide)
  exact ⟨h.1, h.2 (by decide)⟩

/-- `C4`: a single-character word is returned verbatim as the one-element
subword sequence, for every merge table, version and dropout value, with no
end marker attached (stated for a cache with no stale entry for the word,
since a cache hit would short-circuit even earlier). -/
theorem c4_single_char (fuel : Nat) (orig : Sym) (codes : CodesT) (rev : RevT)
    (vocab : Option (List Sym)) (sep : Sym) (ver : List Int) (c : Cache)
    (gloss : Option (List Sym)) (d : ℚ) (rng : List ℚ)
    (h1 : orig.length = 1) (h2 : cacheLookup c orig = none) :
    (encode fuel orig codes rev vocab sep ver c gloss d rng).view = .ok [orig] rng := by
  unfold encode
  have hnone : (if d = 0 then cacheLookup c orig else none) = none := by
    by_cases hd : d = 0 <;> simp [hd, h2]
  rw [hnone]
  by_cases hg : glossMatch gloss orig = true
  · simp only [hg, if_true, EncRes.view]
  · simp only [hg, if_false, Bool.false_eq_true, h1, if_true, EncRes.view]

/-- `C4` witness: `encode("a")` with a non-trivial merge table containing
the rule `(a, b)` returns `("a",)`. -/
theorem c4_single_char_witness :
    (encode 0 "a".toList [((['a'], ['b']), 0)] [] none sepDefault [0, 1] [] none 0
        []).view = .ok [['a']] [] := by
  exact c4_single_char 0 "a".toList [((['a'], ['b']), 0)] [] none sepDefault [0, 1] []
    none 0 [] (by decide) (by decide)

/-- `C6`: one merge pass on the symbol sequence `[x, x, x]` with `(x, x)`
the sole merge rule performs exactly one merge, starting at position 0 and
skipping the overlapping position 1, producing `[xx, x]` and not
`[x, xx]`. -/
theorem c6_overlap_tiebreak (x : Sym) (rk : Nat) (rng : List ℚ) :
    bpeStep [((x, x), rk)] 0 [x, x, x] rng = (some [x ++ x, x], rng) := by
  simp [bpeStep, candFilter, codesLookup, pickMin, applyMerges, drawOne]

/-- `C2` (amended): an unsupported version is fatal at encode time, not at
load time — `encode` raises `NotImplementedError` at the version dispatch
for any word that reaches it (one that is not a cache hit, not a glossary
whole-word match and not a single character), before any merge is applied
or any cache entry is written.  (Construction itself succeeds for such a
table, see the counterexample.) -/
theorem c2_unsupported_version_amended (fuel : Nat) (orig : Sym) (codes : CodesT)
    (rev : RevT) (vocab : Option (List Sym)) (sep : Sym) (ver : List Int) (c : Cache)
    (gloss : Option (List Sym)) (d : ℚ) (rng : List ℚ)
    (h1 : ver ≠ [0, 1]) (h2 : ver ≠ [0, 2])
    (h3 : d = 0 → cacheLookup c orig = none)
    (h4 : glossMatch gloss orig = false) (h5 : orig.length ≠ 1) :
    encode fuel orig codes rev vocab sep ver c gloss d rng = .notImpl := by
  unfold encode
  have hnone : (if d = 0 then cacheLookup c orig else none) = none := by
    by_cases hd : d = 0 <;> simp [hd, h3]
  rw [hnone]
  simp only [h4, if_false, Bool.false_eq_true, h5, if_false]
  unfold encodeMain
  rw [if_neg h1, if_neg h2]

/-- `C2` witness: the amended theorem at version `(0, 3)` and word
`"ab"`. -/
theorem c2_unsupported_version_amended_witness :
    encode 0 "ab".toList [((['a'], ['b']), 0)] [] none sepDefault [0, 3] [] none 0 [] =
      .notImpl := by
  exact c2_unsupported_version_amended 0 "ab".toList [((['a'], ['b']), 0)] [] none
    sepDefault [0, 3] [] none 0 [] (by decide) (by decide) (fun _ => by decide)
    (by decide) (by decide)

/-- `C5` (amended): when the pattern occurs as a proper substring of the
word — and the word is not the pattern followed by a single trailing
newline, which the whole-word regex also matches (`$` matches before a
final newline) and returns unchanged — the trailing non-matching segment
is omitted exactly when it is empty before stripping; otherwise its
whitespace-stripped form — which may be the empty string — is kept as the
final element. -/
theorem c5_isolate_trailing_amended (word glossary : Sym)
    (h1 : glossary <:+: word) (h2 : word ≠ glossary)
    (h3 : word ≠ glossary ++ ['\n']) :
    isolate_glossary word glossary =
      (if (splitKeep glossary word).getLastD [] = [] then
        ((splitKeep glossary word).dropLast).filter (· ≠ [])
      else
        ((splitKeep glossary word).dropLast).filter (· ≠ []) ++
          [stripWS ((splitKeep glossary word).getLastD [])]) := by
  unfold isolate_glossary
  rw [if_neg (by simp [h1, h2, h3])]
  by_cases he : (splitKeep glossary word).getLastD [] = []
  · simp [he]
  · simp [he]

/-- `C5` witness: the amended theorem at the docstring example
`isolate("1934USABUSA", "USA")`, whose trailing segment is empty before
stripping and is omitted. -/
theorem c5_isolate_trailing_amended_witness :
    isolate_glossary "1934USABUSA".toList "USA".toList =
      (if (splitKeep "USA".toList "1934USABUSA".toList).getLastD [] = [] then
        ((splitKeep "USA".toList "1934USABUSA".toList).dropLast).filter (· ≠ [])
      else
        ((splitKeep "USA".toList "1934USABUSA".toList).dropLast).filter (· ≠ []) ++
          [stripWS ((splitKeep "USA".toList "1934USABUSA".toList).getLastD [])]) := by
  exact c5_isolate_trailing_amended "1934USABUSA".toList "USA".toList (by decide)
    (by decide) (by decide)

/-- `C10`: a line consisting entirely of whitespace, carriage-return and
newline characters passes through `process_line` unchanged: the whole line
is copied as the leading whitespace run, the inner segmentation of the
stripped (empty) content contributes nothing, and the trailing-whitespace
guard (`trailing_whitespace != len(line)`) prevents a second copy. -/
theorem c10_whitespace_line (fuel : Nat) (codes : CodesT) (rev : RevT)
    (vocab : Option (List Sym)) (sep : Sym) (ver : List Int) (glossaries : List Sym)
    (gloss : Option (List Sym)) (d : ℚ) (line : List Char) (c : Cache) (r : List ℚ)
    (h : ∀ ch ∈ line, isStripWS ch = true) :
    processLine fuel codes rev vocab sep ver glossaries gloss d line c r =
      .ok line c r := by
  have hdw : line.dropWhile isStripWS = [] := List.dropWhile_eq_nil_iff.mpr h
  have hrw : line.reverse.dropWhile isStripWS = [] :=
    List.dropWhile_eq_nil_iff.mpr (fun ch hm => h ch (List.mem_reverse.mp hm))
  have hstrip : stripWS line = [] := by simp [stripWS, hdw]
  have hrstrip : rstripWS line = [] := by simp [rstripWS, hrw]
  simp only [processLine, segment, hstrip, hdw, hrstrip, List.length_nil, Nat.sub_zero]
  simp [splitOnChar, segmentTokens, joinSp, List.intercalate]

/-- `C10` witness: the whitespace-only line `" \r\n"` is returned
unchanged. -/
theorem c10_whitespace_line_witness :
    processLine 0 [] [] none sepDefault [0, 1] [] none 0 " \r\n".toList [] [] =
      .ok " \r\n".toList [] [] :=
  c10_whitespace_line 0 [] [] none sepDefault [0, 1] [] none 0 " \r\n".toList [] []
    (by decide)

/-- `C7` (amended): whenever any considered non-header line, stripped of
surrounding space/CR/LF characters, does not split on single space
characters into exactly two tokens, merge-table construction fails and no
usable table is produced; when any present header parses as a version
number, the failure is the format error reporting the 1-based,
header-aware line number of the first such line and its stripped content
(a malformed header instead fails earlier, at load time, with its own
`ValueError`/`IndexError` and no line report).  Splitting is on single
spaces, not general whitespace: a line such as `"a b\tc"` is accepted as
the two tokens `"a"` and `"b\tc"`, see the counterexample. -/
theorem c7_format_error_amended (content : List Char) (merges : Int) (i : Nat)
    (item : List Sym)
    (hbad : firstBadAux 0 (itemsOfBody (bodyOf content) merges) = some (i, item)) :
    initOk (bpeInit content merges) = false ∧
    ((hasHeader content = true → headerOk content = true) →
      bpeInit content merges =
        .error (.formatError (i + offsetOf content) (joinSp item))) := by
  constructor
  · unfold bpeInit
    by_cases hh : hasHeader content = true
    · rw [if_pos hh]
      cases htok : (splitWs (readLine1 content).1).getLast? with
      | none => rfl
      | some tok =>
        simp only []
        cases hvp : verParse tok with
        | none => rfl
        | some ver =>
          have hb : bodyOf content = (readLine1 content).2 := by
            unfold bodyOf; rw [if_pos hh]
          rw [hb] at hbad
          simp only [bpeInitBody, hbad, initOk]
    · rw [if_neg hh]
      have hb : bodyOf content = content := by unfold bodyOf; rw [if_neg hh]
      rw [hb] at hbad
      simp only [bpeInitBody, hbad, initOk]
  intro hver
  by_cases hh : hasHeader content = true
  · have hok := hver hh
    unfold headerOk at hok
    cases htok : (splitWs (readLine1 content).1).getLast? with
    | none => rw [htok] at hok; exact absurd hok (by simp)
    | some tok =>
      simp only [htok] at hok
      cases hvp : verParse tok with
      | none => rw [hvp] at hok; simp at hok
      | some ver =>
        have hb : bodyOf content = (readLine1 content).2 := by
          unfold bodyOf; rw [if_pos hh]
        rw [hb] at hbad
        have ho : offsetOf content = 2 := by unfold offsetOf; rw [if_pos hh]
        unfold bpeInit
        rw [if_pos hh, ho]
        simp only [htok, hvp]
        simp only [bpeInitBody, hbad]
  · have hb : bodyOf content = content := by unfold bodyOf; rw [if_neg hh]
    rw [hb] at hbad
    have ho : offsetOf content = 1 := by unfold offsetOf; rw [if_neg hh]
    unfold bpeInit
    rw [if_neg hh, ho]
    simp only [bpeInitBody, hbad]

/-- `C7` witness: the three-token line `"x y z"` makes construction fail
with no usable table, reporting line 1 and the content `"x y z"`. -/
theorem c7_format_error_amended_witness :
    initOk (bpeInit "x y z".toList (-1)) = false ∧
    bpeInit "x y z".toList (-1) =
      .error (.formatError (0 + offsetOf "x y z".toList) (joinSp [['x'], ['y'], ['z']])) := by
  have h := c7_format_error_amended "x y z".toList (-1) 0 [['x'], ['y'], ['z']]
    (by decide)
  exact ⟨h.1, h.2 (fun hctr => absurd hctr (by decide))⟩

/-! ### Helper lemmas about the merge pass and the decomposition recursion -/

/-- Every candidate produced by `candFilter` carries a position at least
the starting index, the adjacent pair actually found at that position, and
its rank in the merge table. -/
theorem candFilter_mem (codes : CodesT) (d : ℚ) :
    ∀ (ps : List (Sym × Sym)) (i : Nat) (rng : List ℚ) (c : Nat × Nat × (Sym × Sym)),
      c ∈ (candFilter codes d ps i rng).1 →
      i ≤ c.2.1 ∧ ps.get? (c.2.1 - i) = some c.2.2 ∧
        codesLookup codes c.2.2 = some c.1 := by
  intro ps
  induction ps with
  | nil =>
    intro i rng c hc
    simp [candFilter] at hc
  | cons p ps ih =>
    intro i rng c hc
    rw [candFilter] at hc
    have hstep : c = (⟨(codesLookup codes p).getD 0, i, p⟩ : Nat × Nat × (Sym × Sym)) ∧
        codesLookup codes p = some c.1 ∨
        (∃ rng', c ∈ (candFilter codes d ps (i + 1) rng').1) := by
      by_cases hd : d = 0
      · rw [if_pos hd] at hc
        cases hlk : codesLookup codes p with
        | some rank =>
          rw [hlk] at hc
          simp only [] at hc
          rcases List.mem_cons.mp hc with heq | hmem
          · subst heq; exact Or.inl ⟨by simp [hlk], by simp [hlk]⟩
          · exact Or.inr ⟨rng, hmem⟩
        | none =>
          rw [hlk] at hc
          simp only [] at hc
          exact Or.inr ⟨rng, hc⟩
      · rw [if_neg hd] at hc
        cases hlk : codesLookup codes p with
        | some rank =>
          rw [hlk] at hc
          simp only [] at hc
          by_cases hkeep : (drawOne rng).1 > d
          · rw [if_pos hkeep] at hc
            rcases List.mem_cons.mp hc with heq | hmem
            · subst heq; exact Or.inl ⟨by simp [hlk], by simp [hlk]⟩
            · exact Or.inr ⟨(drawOne rng).2, hmem⟩
          · rw [if_neg hkeep] at hc
            exact Or.inr ⟨(drawOne rng).2, hc⟩
        | none =>
          rw [hlk] at hc
          simp only [] at hc
          exact Or.inr ⟨(drawOne rng).2, hc⟩
    rcases hstep with ⟨heq, hlk⟩ | ⟨rng', hmem⟩
    · subst heq
      exact ⟨Nat.le_refl i, by simp, hlk⟩
    · obtain ⟨hle, hget, hrk⟩ := ih (i + 1) rng' c hmem
      refine ⟨Nat.le_of_succ_le hle, ?_, hrk⟩
      have : c.2.1 - i = (c.2.1 - (i + 1)) + 1 := by omega
      rw [this]
      simpa using hget

/-- An element of `zip word word.tail` at index `j` is the pair
`(word[j], word[j+1])`. -/
theorem zip_tail_get? :
    ∀ (w : List Sym) (j : Nat) (p : Sym × Sym),
      (w.zip w.tail).get? j = some p →
      w.get? j = some p.1 ∧ w.get? (j + 1) = some p.2
  | [], j, p, h => by simp at h
  | [_], j, p, h => by simp at h
  | a :: b :: t, 0, p, h => by
    simp only [List.tail_cons, List.zip_cons_cons, List.get?_cons_zero] at h
    cases h
    exact ⟨rfl, rfl⟩
  | a :: b :: t, j + 1, p, h => by
    simp only [List.tail_cons, List.zip_cons_cons, List.get?_cons_succ] at h
    have := zip_tail_get? (b :: t) j p (by simpa using h)
    simpa using this

/-- The folded minimum selection of `pickMin` returns an element of the
candidate list. -/
theorem pickMin_mem :
    ∀ (l : List (Nat × Nat × (Sym × Sym))) (c : Nat × Nat × (Sym × Sym)),
      pickMin l = some c → c ∈ l := by
  have aux : ∀ (xs : List (Nat × Nat × (Sym × Sym))) (acc : Nat × Nat × (Sym × Sym)),
      xs.foldl (fun best c' =>
        if c'.1 < best.1 ∨ (c'.1 = best.1 ∧ c'.2.1 < best.2.1) then c' else best) acc
        = acc ∨
      xs.foldl (fun best c' =>
        if c'.1 < best.1 ∨ (c'.1 = best.1 ∧ c'.2.1 < best.2.1) then c' else best) acc
        ∈ xs := by
    intro xs
    induction xs with
    | nil => intro acc; exact Or.inl rfl
    | cons x xs ih =>
      intro acc
      rw [List.foldl_cons]
      rcases ih (if x.1 < acc.1 ∨ (x.1 = acc.1 ∧ x.2.1 < acc.2.1) then x else acc) with
        h | h
      · rw [h]
        split
        · exact Or.inr (List.mem_cons_self _ _)
        · exact Or.inl rfl
      · exact Or.inr (List.mem_cons_of_mem _ h)
  intro l c hp
  cases l with
  | nil => simp [pickMin] at hp
  | cons x xs =>
    rw [pickMin] at hp
    cases hp
    rcases aux xs x with h | h
    · rw [h]; exact List.mem_cons_self _ _
    · exact List.mem_cons_of_mem _ h

/-- The merge scan never lengthens the part of the word it rewrites. -/
theorem applyMerges_length_le (w : List Sym) (m : Sym) :
    ∀ (ps : List Nat) (i : Nat), (∀ j ∈ ps, j + 2 ≤ w.length) →
      (applyMerges w m ps i).length ≤ w.length - i := by
  intro ps
  induction ps with
  | nil =>
    intro i _
    simp [applyMerges]
  | cons j js ih =>
    intro i hv
    rw [applyMerges]
    split
    · exact ih i (fun k hk => hv k (List.mem_cons_of_mem _ hk))
    · have hj2 : j + 2 ≤ w.length := hv j (List.mem_cons_self _ _)
      have hrec := ih (j + 2) (fun k hk => hv k (List.mem_cons_of_mem _ hk))
      simp only [List.length_append, List.length_cons, List.length_take, List.length_drop]
      omega

/-- Positions selected by a merge pass index a real adjacent pair:
`j + 2 ≤ word.length`. -/
theorem positions_valid (codes : CodesT) (d : ℚ) (w : List Sym) (rng : List ℚ)
    (bg : Sym × Sym) (j : Nat)
    (hj : j ∈ (candFilter codes d (w.zip w.tail) 0 rng).1.filterMap
      (fun c => if c.2.2 = bg then some c.2.1 else none)) :
    j + 2 ≤ w.length ∧ w.get? j = some bg.1 ∧ w.get? (j + 1) = some bg.2 := by
  obtain ⟨c, hcmem, hfc⟩ := List.mem_filterMap.mp hj
  have hsplit : c.2.2 = bg ∧ c.2.1 = j := by
    by_cases hbg : c.2.2 = bg
    · rw [if_pos hbg] at hfc
      exact ⟨hbg, by injection hfc⟩
    · rw [if_neg hbg] at hfc
      cases hfc
  obtain ⟨hbg, hcj⟩ := hsplit
  obtain ⟨_, hget, _⟩ := candFilter_mem codes d (w.zip w.tail) 0 rng c hcmem
  rw [hcj, hbg, Nat.sub_zero] at hget
  obtain ⟨hpair1, hpair2⟩ := zip_tail_get? w j bg hget
  have hlt : j < (w.zip w.tail).length := by
    have := List.get?_eq_some.mp hget
    exact this.1
  rw [List.length_zip, List.length_tail] at hlt
  exact ⟨by omega, hpair1, hpair2⟩

/-- A productive merge pass strictly shortens the symbol sequence. -/
theorem bpeStep_shortens (codes : CodesT) (d : ℚ) (w : List Sym) (rng : List ℚ)
    (w' : List Sym) (rng' : List ℚ) (h : bpeStep codes d w rng = (some w', rng')) :
    w'.length < w.length := by
  simp only [bpeStep] at h
  cases hp : pickMin (candFilter codes d (w.zip w.tail) 0 rng).1 with
  | none => rw [hp] at h; cases h
  | some best =>
    rw [hp] at h
    have hw' : w' = applyMerges w (best.2.2.1 ++ best.2.2.2)
        ((candFilter codes d (w.zip w.tail) 0 rng).1.filterMap
          (fun c => if c.2.2 = best.2.2 then some c.2.1 else none)) 0 := by
      have := congrArg Prod.fst h
      simp at this
      exact this.symm
    have hbestpos : best.2.1 ∈ (candFilter codes d (w.zip w.tail) 0 rng).1.filterMap
        (fun c => if c.2.2 = best.2.2 then some c.2.1 else none) :=
      List.mem_filterMap.mpr ⟨best, pickMin_mem _ _ hp, by simp⟩
    obtain ⟨j, js, hcons⟩ := List.exists_cons_of_ne_nil (List.ne_nil_of_mem hbestpos)
    rw [hcons] at hw'
    have hvalid : ∀ k ∈ j :: js, k + 2 ≤ w.length := by
      intro k hk
      rw [← hcons] at hk
      exact (positions_valid codes d w rng best.2.2 k hk).1
    rw [hw', applyMerges, if_neg (Nat.not_lt_zero j)]
    have hrec := applyMerges_length_le w (best.2.2.1 ++ best.2.2.2) js (j + 2)
      (fun k hk => hvalid k (List.mem_cons_of_mem _ hk))
    have hj2 : j + 2 ≤ w.length := hvalid j (List.mem_cons_self _ _)
    simp only [List.length_append, List.length_cons, List.length_take, List.length_drop,
      List.drop_zero, Nat.sub_zero]
    omega

/-- `recursive_split` terminates whenever no merge pair concatenates to
the bare end marker: `segment.length + 6` fuel always suffices. -/
theorem recursiveSplit_enough_fuel (rev : RevT) (vs : List Sym) (sep : Sym)
    (hwf : ∀ k l r, revLookup rev k = some (l, r) → l ++ r = k ∧ l ≠ [] ∧ r ≠ [])
    (hno : revLookup rev eow = none) :
    ∀ (fuel : Nat) (seg : Sym) (final : Bool),
      (if final then seg.length + 6 else seg.length + 1) ≤ fuel →
      recursiveSplit fuel rev vs sep seg final ≠ none := by
  intro fuel
  induction fuel with
  | zero => intro seg final hf; split at hf <;> omega
  | succ f ih =>
    intro seg final hf
    cases final with
    | false =>
      simp only [Bool.false_eq_true, if_false] at hf
      rw [recursiveSplit]
      simp only [Bool.false_eq_true, if_false, false_and, not_false_eq_true, true_and,
        false_or]
      cases hlk : revLookup rev seg with
      | none => simp
      | some lr =>
        obtain ⟨l, r⟩ := lr
        obtain ⟨hcat, hl, hr⟩ := hwf _ _ _ hlk
        have hlen : l.length + r.length = seg.length := by
          simpa using congrArg List.length hcat
        have hlpos : 1 ≤ l.length := List.length_pos.mpr hl
        have hrpos : 1 ≤ r.length := List.length_pos.mpr hr
        have hleft : (if (l ++ sep) ∈ vs then some [l]
            else recursiveSplit f rev vs sep l false) ≠ none := by
          split
          · simp
          · exact ih l false
              (by simp only [Bool.false_eq_true, if_false]; omega)
        have hright : (if (r ++ sep) ∈ vs then some [r]
            else recursiveSplit f rev vs sep r false) ≠ none := by
          split
          · simp
          · exact ih r false
              (by simp only [Bool.false_eq_true, if_false]; omega)
        obtain ⟨a, ha⟩ := Option.ne_none_iff_exists'.mp hleft
        obtain ⟨b, hb⟩ := Option.ne_none_iff_exists'.mp hright
        simp only []
        rw [ha, hb]
        simp
    | true =>
      simp only [if_true] at hf
      rw [recursiveSplit]
      simp only [if_true, true_and, not_true_eq_false, false_and, or_false]
      cases hlk : revLookup rev (seg ++ eow) with
      | none => simp
      | some lr =>
        obtain ⟨l, r⟩ := lr
        obtain ⟨hcat, hl, hr⟩ := hwf _ _ _ hlk
        have hsegne : seg ≠ [] := by
          intro hsegnil
          rw [hsegnil, List.nil_append, hno] at hlk
          cases hlk
        have hsegpos : 1 ≤ seg.length := List.length_pos.mpr hsegne
        have hlen : l.length + r.length = seg.length + 4 := by
          simpa using congrArg List.length hcat
        have hlpos : 1 ≤ l.length := List.length_pos.mpr hl
        have hrpos : 1 ≤ r.length := List.length_pos.mpr hr
        have hleft : (if (l ++ sep) ∈ vs then some [l]
            else recursiveSplit f rev vs sep l false) ≠ none := by
          split
          · simp
          · exact ih l false
              (by simp only [Bool.false_eq_true, if_false]; omega)
        have hright : (if r.take (r.length - 4) ∈ vs then some [r.take (r.length - 4)]
            else recursiveSplit f rev vs sep (r.take (r.length - 4)) true) ≠ none := by
          split
          · simp
          · apply ih (r.take (r.length - 4)) true
            simp only [if_true, List.length_take]
            omega
        obtain ⟨a, ha⟩ := Option.ne_none_iff_exists'.mp hleft
        obtain ⟨b, hb⟩ := Option.ne_none_iff_exists'.mp hright
        simp only []
        rw [ha, hb]
        simp

/-- `C9` (amended): the merge loop always terminates — every productive
iteration strictly shortens the symbol sequence — and the recursive
vocabulary decomposition terminates (within `segment.length + 6` recursion
depth) provided that reverse-index entries split their key into two
nonempty halves and that no merge pair concatenates to the bare end marker
`'</w>'`.  Without that proviso the recursion can run forever, see the
counterexample. -/
theorem c9_termination_amended :
    (∀ (codes : CodesT) (d : ℚ) (w : List Sym) (rng : List ℚ) (w' : List Sym)
        (rng' : List ℚ),
      bpeStep codes d w rng = (some w', rng') → w'.length < w.length) ∧
    (∀ (rev : RevT) (vs : List Sym) (sep : Sym),
      (∀ k l r, revLookup rev k = some (l, r) → l ++ r = k ∧ l ≠ [] ∧ r ≠ []) →
      revLookup rev eow = none →
      ∀ (fuel : Nat) (seg : Sym) (final : Bool),
        (if final then seg.length + 6 else seg.length + 1) ≤ fuel →
        recursiveSplit fuel rev vs sep seg final ≠ none) :=
  ⟨bpeStep_shortens, recursiveSplit_enough_fuel⟩

/-- `C9` witness: one merge pass on `[x, x, x]` shortens it to length 2,
and seven units of fuel settle `recursive_split` on the one-character
segment `"a"` over the empty reverse index. -/
theorem c9_termination_amended_witness :
    ([['x', 'x'], ['x']] : List Sym).length < ([['x'], ['x'], ['x']] : List Sym).length ∧
    (recursiveSplit 7 [] [] sepDefault ['a'] true).isSome = true := by
  constructor
  · exact c9_termination_amended.1 [((['x'], ['x']), 0)] 0 [['x'], ['x'], ['x']] []
      [['x', 'x'], ['x']] [] (by decide)
  · exact Option.isSome_iff_ne_none.mpr
      (c9_termination_amended.2 [] [] sepDefault
        (fun k l r hctr => by simp [revLookup] at hctr) (by simp [revLookup])
        7 ['a'] true (by decide))

/-! ### End-marker uniqueness and cleanliness lemmas -/

/-- In `base ++ '</w>'` with `base` free of the marker, the final
occurrence of the marker is the only one: any decomposition
`u ++ '</w>' ++ v` has an empty remainder `v`. -/
theorem eow_unique (base : Sym) (hb : ¬ eow <:+: base) :
    ∀ u v : Sym, u ++ (eow ++ v) = base ++ eow → v = [] := by
  intro u v h
  by_contra hv
  have hlen : u.length + (4 + v.length) = base.length + 4 := by
    have := congrArg List.length h
    simp [eow] at this
    omega
  have hvpos : 1 ≤ v.length := List.length_pos.mpr hv
  by_cases hv4 : 4 ≤ v.length
  · have hule : u.length + 4 ≤ base.length := by omega
    have htake : (u ++ (eow ++ v)).take (u.length + 4) = u ++ eow := by
      rw [← List.append_assoc]
      exact List.take_left' (by simp [eow])
    have htake' : (base ++ eow).take (u.length + 4) = base.take (u.length + 4) :=
      List.take_append_of_le_length hule
    have hpre : u ++ eow = base.take (u.length + 4) := by rw [← htake, h, htake']
    refine hb ⟨u, base.drop (u.length + 4), ?_⟩
    rw [hpre]
    exact List.take_append_drop _ _
  · have hule : u.length ≤ base.length := by omega
    have hdrop : eow ++ v = base.drop u.length ++ eow := by
      have h1 : (u ++ (eow ++ v)).drop u.length = eow ++ v := List.drop_left u _
      have h2 : (base ++ eow).drop u.length = base.drop u.length ++ eow := by
        rw [List.drop_append_eq_append_drop]
        have hz : u.length - base.length = 0 := by omega
        rw [hz, List.drop_zero]
      rw [← h1, h, h2]
    have hslen : (base.drop u.length).length = v.length := by
      simp only [List.length_drop]
      omega
    have hs : base.drop u.length = eow.take v.length := by
      have hcg := congrArg (List.take v.length) hdrop
      rw [List.take_append_of_le_length (by simp [eow]; omega),
        List.take_left' hslen] at hcg
      exact hcg.symm
    rw [hs] at hdrop
    have hkey : eow = eow.take v.length ++ eow.take (4 - v.length) := by
      have hcg := congrArg (List.take 4) hdrop
      rw [List.take_left' (by simp [eow] : (eow : Sym).length = 4)] at hcg
      rw [List.take_append_eq_append_take, List.take_take] at hcg
      have h1 : min 4 v.length = v.length := by omega
      have h2 : (eow.take v.length).length = v.length := by
        simp [eow]
        omega
      rw [h1, h2] at hcg
      exact hcg
    have hk : v.length = 1 ∨ v.length = 2 ∨ v.length = 3 := by omega
    rcases hk with hk | hk | hk <;> rw [hk] at hkey <;> exact absurd hkey (by decide)

/-- Flattening a word materialised as singleton symbols gives the word
back. -/
theorem flatten_map_singleton (l : List Char) :
    (l.map (fun ch => ([ch] : Sym))).flatten = l := by
  induction l with
  | nil => rfl
  | cons a t ih => simp [ih]

/-- A sublist of a marker-free string is marker-free. -/
theorem clean_of_infix (s t : Sym) (hs : ¬ eow <:+: s) (ht : t <:+: s) :
    ¬ eow <:+: t :=
  fun hinf => hs (hinf.trans ht)

/-- Elements of a symbol list whose flattening, followed by a nonempty
tail, reconstitutes `base ++ '</w>'` never contain the marker: a marker
occurrence inside such an element would be a non-final occurrence. -/
theorem clean_of_mem_split (base : Sym) (hb : ¬ eow <:+: base)
    (pre : List Sym) (tail : Sym) (htail : tail ≠ [])
    (hj : pre.flatten ++ tail = base ++ eow) :
    ∀ s ∈ pre, ¬ eow <:+: s := by
  intro s hs hinf
  obtain ⟨x, y, hxy⟩ := hinf
  obtain ⟨A, B, hAB⟩ := List.append_of_mem hs
  have hfl : pre.flatten = A.flatten ++ (s ++ B.flatten) := by
    rw [hAB]
    simp
  have hassoc : (A.flatten ++ x) ++ (eow ++ (y ++ (B.flatten ++ tail))) = base ++ eow := by
    rw [← hj, hfl, ← hxy]
    simp [List.append_assoc]
  have hveq := eow_unique base hb (A.flatten ++ x) (y ++ (B.flatten ++ tail)) hassoc
  have htl : tail = [] := by
    have := congrArg List.length hveq
    simp only [List.length_append, List.length_nil] at this
    exact List.length_eq_zero.mp (by omega)
  exact htail htl

/-- The merge scan preserves the concatenation of the rewritten part of
the word: merging adjacent symbols never changes the underlying string. -/
theorem applyMerges_flatten (w : List Sym) (bg : Sym × Sym) :
    ∀ (ps : List Nat) (i : Nat),
      (∀ j ∈ ps, j + 1 < w.length ∧ w.get? j = some bg.1 ∧ w.get? (j + 1) = some bg.2) →
      (applyMerges w (bg.1 ++ bg.2) ps i).flatten = (w.drop i).flatten := by
  intro ps
  induction ps with
  | nil => intro i _; rfl
  | cons j js ih =>
    intro i hv
    rw [applyMerges]
    split
    · exact ih i (fun k hk => hv k (List.mem_cons_of_mem _ hk))
    · rename_i hji
      obtain ⟨hjlt, hg1, hg2⟩ := hv j (List.mem_cons_self _ _)
      have hrec := ih (j + 2) (fun k hk => hv k (List.mem_cons_of_mem _ hk))
      have hdecomp : w.drop i = (w.drop i).take (j - i) ++ (bg.1 :: bg.2 :: w.drop (j + 2)) := by
        have h1 : (w.drop i).take (j - i) ++ (w.drop i).drop (j - i) = w.drop i :=
          List.take_append_drop _ _
        have h2 : (w.drop i).drop (j - i) = w.drop j := by
          rw [List.drop_drop]
          congr 1
          omega
        have h3 : w.drop j = bg.1 :: w.drop (j + 1) := by
          rw [List.drop_eq_getElem_cons (by omega : j < w.length)]
          congr 1
          exact (List.get?_eq_some.mp hg1).2
        have h4 : w.drop (j + 1) = bg.2 :: w.drop (j + 2) := by
          rw [List.drop_eq_getElem_cons hjlt]
          congr 1
          exact (List.get?_eq_some.mp hg2).2
        conv_lhs => rw [← h1]
        rw [h2, h3, h4]
      conv_rhs => rw [hdecomp]
      simp [hrec, List.append_assoc]

/-- Every element produced by the merge scan is an old symbol or the
merged symbol. -/
theorem applyMerges_mem (w : List Sym) (m : Sym) :
    ∀ (ps : List Nat) (i : Nat) (s : Sym), s ∈ applyMerges w m ps i → s ∈ w ∨ s = m := by
  intro ps
  induction ps with
  | nil =>
    intro i s hs
    exact Or.inl (List.drop_subset _ _ hs)
  | cons j js ih =>
    intro i s hs
    rw [applyMerges] at hs
    split at hs
    · exact ih i s hs
    · rcases List.mem_append.mp hs with h1 | h2
      · exact Or.inl (List.drop_subset _ _ (List.take_subset _ _ h1))
      · rcases List.mem_cons.mp h2 with h3 | h4
        · exact Or.inr h3
        · exact ih (j + 2) s h4

/-- A productive merge pass preserves the flattened word, and each new
symbol is an old symbol or the concatenation of two old symbols. -/
theorem bpeStep_flatten (codes : CodesT) (d : ℚ) (w : List Sym) (rng : List ℚ)
    (w' : List Sym) (rng' : List ℚ) (h : bpeStep codes d w rng = (some w', rng')) :
    w'.flatten = w.flatten ∧
    ∀ s ∈ w', s ∈ w ∨ ∃ a b, a ∈ w ∧ b ∈ w ∧ s = a ++ b := by
  simp only [bpeStep] at h
  cases hp : pickMin (candFilter codes d (w.zip w.tail) 0 rng).1 with
  | none => rw [hp] at h; cases h
  | some best =>
    rw [hp] at h
    have hw' : w' = applyMerges w (best.2.2.1 ++ best.2.2.2)
        ((candFilter codes d (w.zip w.tail) 0 rng).1.filterMap
          (fun c => if c.2.2 = best.2.2 then some c.2.1 else none)) 0 := by
      have := congrArg Prod.fst h
      simp at this
      exact this.symm
    have hvalid : ∀ j ∈ (candFilter codes d (w.zip w.tail) 0 rng).1.filterMap
        (fun c => if c.2.2 = best.2.2 then some c.2.1 else none),
        j + 1 < w.length ∧ w.get? j = some best.2.2.1 ∧ w.get? (j + 1) = some best.2.2.2 := by
      intro j hj
      obtain ⟨h2, hg1, hg2⟩ := positions_valid codes d w rng best.2.2 j hj
      exact ⟨by omega, hg1, hg2⟩
    constructor
    · rw [hw']
      have := applyMerges_flatten w best.2.2
        ((candFilter codes d (w.zip w.tail) 0 rng).1.filterMap
          (fun c => if c.2.2 = best.2.2 then some c.2.1 else none)) 0 hvalid
      simpa using this
    · intro s hs
      rw [hw'] at hs
      rcases applyMerges_mem w (best.2.2.1 ++ best.2.2.2) _ 0 s hs with hin | heq
      · exact Or.inl hin
      · have hbestpos : best.2.1 ∈ (candFilter codes d (w.zip w.tail) 0 rng).1.filterMap
            (fun c => if c.2.2 = best.2.2 then some c.2.1 else none) :=
          List.mem_filterMap.mpr ⟨best, pickMin_mem _ _ hp, by simp⟩
        obtain ⟨_, hg1, hg2⟩ := hvalid best.2.1 hbestpos
        exact Or.inr ⟨best.2.2.1, best.2.2.2, List.get?_mem hg1, List.get?_mem hg2, heq⟩

/-- The merge loop preserves the flattened word and never produces empty
symbols from nonempty ones. -/
theorem bpeLoopF_inv (codes : CodesT) (d : ℚ) :
    ∀ (fuel : Nat) (w : List Sym) (rng : List ℚ), (∀ s ∈ w, s ≠ []) →
      (bpeLoopF codes d fuel w rng).1.flatten = w.flatten ∧
      ∀ s ∈ (bpeLoopF codes d fuel w rng).1, s ≠ [] := by
  intro fuel
  induction fuel with
  | zero => intro w rng hne; exact ⟨rfl, hne⟩
  | succ f ih =>
    intro w rng hne
    rw [bpeLoopF]
    split
    · exact ⟨rfl, hne⟩
    · rcases hs : bpeStep codes d w rng with ⟨o, rng₁⟩
      cases o with
      | none => exact ⟨rfl, hne⟩
      | some w₁ =>
        obtain ⟨hfl, hmem⟩ := bpeStep_flatten codes d w rng w₁ rng₁ hs
        have hne₁ : ∀ s ∈ w₁, s ≠ [] := by
          intro s hsw
          rcases hmem s hsw with hin | ⟨a, b, hain, _, habs⟩
          · exact hne s hin
          · rw [habs]
            simp only [ne_eq, List.append_eq_nil, not_and]
            intro ha
            exact absurd ha (hne a hain)
        obtain ⟨ih1, ih2⟩ := ih w₁ rng₁ hne₁
        exact ⟨by rw [ih1, hfl], ih2⟩

/-- After the merge loop, stripping the end marker from the final symbol
yields a sequence in which no symbol contains the marker at all. -/
theorem stripped_clean (base : Sym) (hb : ¬ eow <:+: base) (W : List Sym)
    (hfl : W.flatten = base ++ eow) (hne : ∀ s ∈ W, s ≠ []) (last : Sym)
    (hlast : W.getLast? = some last) :
    ∀ s ∈ (if last = eow then W.dropLast
           else if eow.isSuffixOf last then W.dropLast ++ [last.take (last.length - 4)]
           else W), ¬ eow <:+: s := by
  have hW : W.dropLast ++ [last] = W := List.dropLast_append_getLast? last hlast
  by_cases h1 : last = eow
  · rw [if_pos h1]
    apply clean_of_mem_split base hb W.dropLast eow (by simp [eow])
    rw [← hfl]
    conv_rhs => rw [← hW]
    simp [h1]
  · rw [if_neg h1]
    by_cases h2 : eow.isSuffixOf last
    · rw [if_pos h2]
      obtain ⟨t, ht⟩ := List.isSuffixOf_iff_suffix.mp h2
      have htake : last.take (last.length - 4) = t := by
        rw [← ht]
        have hlt : (t ++ eow).length - 4 = t.length := by simp [eow]
        rw [hlt]
        exact List.take_left t eow
      rw [htake]
      apply clean_of_mem_split base hb (W.dropLast ++ [t]) eow (by simp [eow])
      rw [← hfl]
      conv_rhs => rw [← hW]
      rw [← ht]
      simp [List.append_assoc]
    · rw [if_neg h2]
      intro s hs hinf
      have hlastne : last ≠ [] := by
        apply hne
        rw [← hW]
        exact List.mem_append_right _ (List.mem_singleton.mpr rfl)
      rw [← hW] at hs
      rcases List.mem_append.mp hs with hsd | hsl
      · exact clean_of_mem_split base hb W.dropLast last hlastne
          (by rw [← hfl]; conv_rhs => rw [← hW]; simp) s hsd hinf
      · have hseq : s = last := List.mem_singleton.mp hsl
        subst hseq
        obtain ⟨x, y, hxy⟩ := hinf
        by_cases hy : y = []
        · apply h2
          rw [List.isSuffixOf_iff_suffix]
          exact ⟨x, by rw [← hxy, hy, List.append_nil]⟩
        · have hassoc : (W.dropLast.flatten ++ x) ++ (eow ++ y) = base ++ eow := by
            rw [← hfl]
            conv_rhs => rw [← hW]
            rw [← hxy]
            simp [List.append_assoc]
          exact hy (eow_unique base hb (W.dropLast.flatten ++ x) y hassoc)

/-- The marker cannot occur in the empty string. -/
theorem eow_not_infix_nil : ¬ eow <:+: ([] : Sym) := by decide

/-- `recursive_split` on a marker-free segment only yields marker-free
pieces, provided reverse-index entries split their key into two nonempty
halves. -/
theorem recursiveSplit_clean (rev : RevT) (vs : List Sym) (sep : Sym)
    (hwf : ∀ k l r, revLookup rev k = some (l, r) → l ++ r = k ∧ l ≠ [] ∧ r ≠ []) :
    ∀ (fuel : Nat) (seg : Sym) (final : Bool) (out : List Sym),
      ¬ eow <:+: seg → recursiveSplit fuel rev vs sep seg final = some out →
      ∀ s ∈ out, ¬ eow <:+: s := by
  intro fuel
  induction fuel with
  | zero => intro seg final out _ habs; cases habs
  | succ f ih =>
    intro seg final out hseg h
    rw [recursiveSplit] at h
    cases final with
    | false =>
      simp only [Bool.false_eq_true, if_false, false_and, not_false_eq_true, true_and,
        false_or] at h
      cases hlk : revLookup rev seg with
      | none =>
        rw [hlk] at h
        simp only [Option.some.injEq] at h
        subst h
        intro s hs
        rw [List.mem_singleton.mp hs]
        exact hseg
      | some lr =>
        obtain ⟨l, r⟩ := lr
        rw [hlk] at h
        simp only [] at h
        obtain ⟨hcat, hl, hr⟩ := hwf _ _ _ hlk
        have hlcl : ¬ eow <:+: l :=
          clean_of_infix seg l hseg ⟨[], r, by simpa using hcat⟩
        have hrcl : ¬ eow <:+: r :=
          clean_of_infix seg r hseg ⟨l, [], by simpa using hcat⟩
        cases hlp : (if (l ++ sep) ∈ vs then some [l]
            else recursiveSplit f rev vs sep l false) with
        | none => rw [hlp] at h; cases h
        | some a =>
          cases hrp : (if (r ++ sep) ∈ vs then some [r]
              else recursiveSplit f rev vs sep r false) with
          | none => rw [hlp, hrp] at h; cases h
          | some b =>
            rw [hlp, hrp] at h
            simp only [Option.some.injEq] at h
            subst h
            have hacl : ∀ s ∈ a, ¬ eow <:+: s := by
              rcases (by split at hlp <;> [exact Or.inl hlp; exact Or.inr hlp] :
                  some [l] = some a ∨ recursiveSplit f rev vs sep l false = some a) with
                hcase | hcase
              · cases hcase
                intro s hs
                rw [List.mem_singleton.mp hs]
                exact hlcl
              · exact ih l false a hlcl hcase
            have hbcl : ∀ s ∈ b, ¬ eow <:+: s := by
              rcases (by split at hrp <;> [exact Or.inl hrp; exact Or.inr hrp] :
                  some [r] = some b ∨ recursiveSplit f rev vs sep r false = some b) with
                hcase | hcase
              · cases hcase
                intro s hs
                rw [List.mem_singleton.mp hs]
                exact hrcl
              · exact ih r false b hrcl hcase
            intro s hs
            rcases List.mem_append.mp hs with hsa | hsb
            · exact hacl s hsa
            · exact hbcl s hsb
    | true =>
      simp only [if_true, true_and, not_true_eq_false, false_and, or_false] at h
      cases hlk : revLookup rev (seg ++ eow) with
      | none =>
        rw [hlk] at h
        simp only [Option.some.injEq] at h
        subst h
        intro s hs
        rw [List.mem_singleton.mp hs]
        exact hseg
      | some lr =>
        obtain ⟨l, r⟩ := lr
        rw [hlk] at h
        simp only [] at h
        obtain ⟨hcat, hl, hr⟩ := hwf _ _ _ hlk
        have hlcl : ¬ eow <:+: l := by
          intro hinf
          obtain ⟨u, v, huv⟩ := hinf
          have hassoc : u ++ (eow ++ (v ++ r)) = seg ++ eow := by
            rw [← hcat, ← huv]
            simp [List.append_assoc]
          have := eow_unique seg hseg u (v ++ r) hassoc
          exact hr (List.append_eq_nil.mp this).2
        have hrcl : ¬ eow <:+: r.take (r.length - 4) := by
          by_cases hr4 : 4 ≤ r.length
          · have hll : l.length ≤ seg.length := by
              have := congrArg List.length hcat
              simp [eow] at this
              omega
            have hre : r = seg.drop l.length ++ eow := by
              have h1 : (l ++ r).drop l.length = r := List.drop_left l r
              have h2 : (seg ++ eow).drop l.length = seg.drop l.length ++ eow := by
                rw [List.drop_append_eq_append_drop]
                have hz : l.length - seg.length = 0 := by omega
                rw [hz, List.drop_zero]
              rw [← h1, hcat, h2]
            have hrt : r.take (r.length - 4) = seg.drop l.length := by
              rw [hre]
              have hlen : (seg.drop l.length ++ eow).length - 4 = (seg.drop l.length).length := by
                simp [eow]
              rw [hlen]
              exact List.take_left _ _
            rw [hrt]
            exact clean_of_infix seg _ hseg ((List.drop_suffix _ _).isInfix)
          · have hrt : r.take (r.length - 4) = [] := by
              have hz : r.length - 4 = 0 := by omega
              rw [hz, List.take_zero]
            rw [hrt]
            exact eow_not_infix_nil
        cases hlp : (if (l ++ sep) ∈ vs then some [l]
            else recursiveSplit f rev vs sep l false) with
        | none => rw [hlp] at h; cases h
        | some a =>
          cases hrp : (if r.take (r.length - 4) ∈ vs then some [r.take (r.length - 4)]
              else recursiveSplit f rev vs sep (r.take (r.length - 4)) true) with
          | none => rw [hlp, hrp] at h; cases h
          | some b =>
            rw [hlp, hrp] at h
            simp only [Option.some.injEq] at h
            subst h
            have hacl : ∀ s ∈ a, ¬ eow <:+: s := by
              rcases (by split at hlp <;> [exact Or.inl hlp; exact Or.inr hlp] :
                  some [l] = some a ∨ recursiveSplit f rev vs sep l false = some a) with
                hcase | hcase
              · cases hcase
                intro s hs
                rw [List.mem_singleton.mp hs]
                exact hlcl
              · exact ih l false a hlcl hcase
            have hbcl : ∀ s ∈ b, ¬ eow <:+: s := by
              rcases (by split at hrp <;> [exact Or.inl hrp; exact Or.inr hrp] :
                  some [r.take (r.length - 4)] = some b ∨
                    recursiveSplit f rev vs sep (r.take (r.length - 4)) true = some b) with
                hcase | hcase
              · cases hcase
                intro s hs
                rw [List.mem_singleton.mp hs]
                exact hrcl
              · exact ih (r.take (r.length - 4)) true b hrcl hcase
            intro s hs
            rcases List.mem_append.mp hs with hsa | hsb
            · exact hacl s hsa
            · exact hbcl s hsb

/-- The non-final vocabulary-closure loop preserves marker-freedom. -/
theorem cvsParts_clean (fuel : Nat) (rev : RevT) (vs : List Sym) (sep : Sym)
    (hwf : ∀ k l r, revLookup rev k = some (l, r) → l ++ r = k ∧ l ≠ [] ∧ r ≠ []) :
    ∀ (segs out : List Sym), (∀ s ∈ segs, ¬ eow <:+: s) →
      cvsParts fuel rev vs sep segs = some out → ∀ s ∈ out, ¬ eow <:+: s := by
  intro segs
  induction segs with
  | nil =>
    intro out _ h
    rw [cvsParts] at h
    simp only [Option.some.injEq] at h
    subst h
    intro s hs
    cases hs
  | cons seg rest ih =>
    intro out hcl h
    rw [cvsParts] at h
    have hsegcl : ¬ eow <:+: seg := hcl seg (List.mem_cons_self _ _)
    cases hp : (if (seg ++ sep) ∈ vs then some [seg]
        else recursiveSplit fuel rev vs sep seg false) with
    | none => rw [hp] at h; cases h
    | some p =>
      cases hq : cvsParts fuel rev vs sep rest with
      | none => rw [hp, hq] at h; cases h
      | some q =>
        rw [hp, hq] at h
        simp only [Option.some.injEq] at h
        subst h
        have hpcl : ∀ s ∈ p, ¬ eow <:+: s := by
          rcases (by split at hp <;> [exact Or.inl hp; exact Or.inr hp] :
              some [seg] = some p ∨ recursiveSplit fuel rev vs sep seg false = some p) with
            hcase | hcase
          · cases hcase
            intro s hs
            rw [List.mem_singleton.mp hs]
            exact hsegcl
          · exact recursiveSplit_clean rev vs sep hwf fuel seg false p hsegcl hcase
        have hqcl : ∀ s ∈ q, ¬ eow <:+: s :=
          ih q (fun s hs => hcl s (List.mem_cons_of_mem _ hs)) hq
        intro s hs
        rcases List.mem_append.mp hs with hsp | hsq
        · exact hpcl s hsp
        · exact hqcl s hsq

/-- `check_vocab_and_split` preserves marker-freedom. -/
theorem checkVocabAndSplit_clean (fuel : Nat) (orig : List Sym) (rev : RevT)
    (vs : List Sym) (sep : Sym) (out : List Sym)
    (hwf : ∀ k l r, revLookup rev k = some (l, r) → l ++ r = k ∧ l ≠ [] ∧ r ≠ [])
    (hcl : ∀ s ∈ orig, ¬ eow <:+: s)
    (h : checkVocabAndSplit fuel orig rev vs sep = .sOk out) :
    ∀ s ∈ out, ¬ eow <:+: s := by
  rw [checkVocabAndSplit] at h
  cases hlast : orig.getLast? with
  | none => rw [hlast] at h; cases h
  | some lastSeg =>
    rw [hlast] at h
    simp only [] at h
    have hlmem : lastSeg ∈ orig := by
      have hW := List.dropLast_append_getLast? lastSeg hlast
      rw [← hW]
      exact List.mem_append_right _ (List.mem_singleton.mpr rfl)
    have hlcl : ¬ eow <:+: lastSeg := hcl lastSeg hlmem
    cases hps : cvsParts fuel rev vs sep orig.dropLast with
    | none => rw [hps] at h; cases h
    | some ps =>
      cases hfp : (if lastSeg ∈ vs then some [lastSeg]
          else recursiveSplit fuel rev vs sep lastSeg true) with
      | none => rw [hps, hfp] at h; cases h
      | some fp =>
        rw [hps, hfp] at h
        cases h
        have hpscl : ∀ s ∈ ps, ¬ eow <:+: s :=
          cvsParts_clean fuel rev vs sep hwf orig.dropLast ps
            (fun s hs => hcl s (List.dropLast_subset _ hs)) hps
        have hfpcl : ∀ s ∈ fp, ¬ eow <:+: s := by
          rcases (by split at hfp <;> [exact Or.inl hfp; exact Or.inr hfp] :
              some [lastSeg] = some fp ∨
                recursiveSplit fuel rev vs sep lastSeg true = some fp) with
            hcase | hcase
          · cases hcase
            intro s hs
            rw [List.mem_singleton.mp hs]
            exact hlcl
          · exact recursiveSplit_clean rev vs sep hwf fuel lastSeg true fp hlcl hcase
        intro s hs
        rcases List.mem_append.mp hs with hsp | hsf
        · exact hpscl s hsp
        · exact hfpcl s hsf

/-- The merge loop plus end-marker strip plus vocabulary closure only
produces marker-free symbols when started from a materialisation of a
marker-free word. -/
theorem mainFinish_clean (fuel : Nat) (codes : CodesT) (rev : RevT)
    (vocab : Option (List Sym)) (sep : Sym) (d : ℚ) (w0 : List Sym) (rng : List ℚ)
    (base : Sym) (out : List Sym) (rng' : List ℚ)
    (hb : ¬ eow <:+: base)
    (hj : w0.flatten = base ++ eow) (hne : ∀ s ∈ w0, s ≠ [])
    (hwf : ∀ k l r, revLookup rev k = some (l, r) → l ++ r = k ∧ l ≠ [] ∧ r ≠ [])
    (h : mainFinish fuel codes rev vocab sep d w0 rng = .ok out rng') :
    ∀ s ∈ out, ¬ eow <:+: s := by
  obtain ⟨hfl, hne1⟩ := bpeLoopF_inv codes d w0.length w0 rng hne
  simp only [mainFinish] at h
  cases hlast : (bpeLoopF codes d w0.length w0 rng).1.getLast? with
  | none => rw [hlast] at h; cases h
  | some last =>
    rw [hlast] at h
    simp only [] at h
    have hstrip := stripped_clean base hb (bpeLoopF codes d w0.length w0 rng).1
      (by rw [hfl, hj]) hne1 last hlast
    cases vocab with
    | none =>
      cases h
      exact hstrip
    | some vs =>
      simp only [] at h
      by_cases hvs : vs = []
      · rw [if_pos hvs] at h
        cases h
        exact hstrip
      · rw [if_neg hvs] at h
        cases hcvs : checkVocabAndSplit fuel
            (if last = eow then (bpeLoopF codes d w0.length w0 rng).1.dropLast
             else if eow.isSuffixOf last then
               (bpeLoopF codes d w0.length w0 rng).1.dropLast ++
                 [last.take (last.length - 4)]
             else (bpeLoopF codes d w0.length w0 rng).1) rev vs sep with
        | sOk o =>
          rw [hcvs] at h
          cases h
          exact checkVocabAndSplit_clean fuel _ rev vs sep out hwf hstrip hcvs
        | sIdxErr => rw [hcvs] at h; cases h
        | sFuelOut => rw [hcvs] at h; cases h

/-- `C8` (amended): for every input word that does not itself contain the
end-marker string `'</w>'`, under either end-of-word convention, no subword
returned by `encode` is the end-marker symbol or carries it as a suffix —
provided the reverse index splits its keys into nonempty halves (true of
every loaded table) and every cached value already satisfies the
invariant.  A word that spells out `'</w>'` can defeat the stripping, see
the counterexample. -/
theorem c8_end_marker_amended (fuel : Nat) (orig : Sym) (codes : CodesT) (rev : RevT)
    (vocab : Option (List Sym)) (sep : Sym) (ver : List Int) (c : Cache)
    (gloss : Option (List Sym)) (d : ℚ) (rng : List ℚ) (out : List Sym) (c' : Cache)
    (rng' : List ℚ)
    (horig : ¬ eow <:+: orig)
    (hcache : ∀ k v, cacheLookup c k = some v → ∀ s ∈ v, ¬ eow <:+ s)
    (hwf : ∀ k l r, revLookup rev k = some (l, r) → l ++ r = k ∧ l ≠ [] ∧ r ≠ [])
    (h : encode fuel orig codes rev vocab sep ver c gloss d rng = .ok out c' rng') :
    ∀ s ∈ out, ¬ eow <:+ s := by
  unfold encode at h
  cases hcv : (if d = 0 then cacheLookup c orig else none) with
  | some v =>
    rw [hcv] at h
    cases h
    have hlk : cacheLookup c orig = some out := by
      by_cases hd : d = 0
      · rwa [if_pos hd] at hcv
      · rw [if_neg hd] at hcv; cases hcv
    exact hcache orig out hlk
  | none =>
    rw [hcv] at h
    by_cases hg : glossMatch gloss orig = true
    · simp only [hg, if_true] at h
      cases h
      intro s hs hsuf
      rw [List.mem_singleton.mp hs] at hsuf
      exact horig hsuf.isInfix
    · simp only [hg, if_false, Bool.false_eq_true] at h
      by_cases hl : orig.length = 1
      · simp only [hl, if_true] at h
        cases h
        intro s hs hsuf
        rw [List.mem_singleton.mp hs] at hsuf
        exact horig hsuf.isInfix
      · simp only [hl, if_false] at h
        cases hm : encodeMain fuel orig codes rev vocab sep ver d rng with
        | ok mo mr =>
          rw [hm] at h
          cases h
          rw [encodeMain] at hm
          by_cases h01 : ver = [0, 1]
          · rw [if_pos h01] at hm
            have hjfl : (orig.map (fun ch => ([ch] : Sym)) ++ [eow]).flatten =
                orig ++ eow := by
              simp [flatten_map_singleton]
            have hnei : ∀ s ∈ orig.map (fun ch => ([ch] : Sym)) ++ [eow], s ≠ [] := by
              intro s hs
              rcases List.mem_append.mp hs with h1 | h2
              · obtain ⟨ch, _, hch⟩ := List.mem_map.mp h1
                rw [← hch]
                simp
              · rw [List.mem_singleton.mp h2]
                simp [eow]
            intro s hs hsuf
            exact mainFinish_clean fuel codes rev vocab sep d _ rng orig out rng' horig
              hjfl hnei hwf hm s hs hsuf.isInfix
          · rw [if_neg h01] at hm
            by_cases h02 : ver = [0, 2]
            · rw [if_pos h02] at hm
              cases hlast : orig.getLast? with
              | none => rw [hlast] at hm; cases hm
              | some ch =>
                rw [hlast] at hm
                simp only [] at hm
                have hW : orig.dropLast ++ [ch] = orig :=
                  List.dropLast_append_getLast? ch hlast
                have hjfl : (orig.dropLast.map (fun c0 => ([c0] : Sym)) ++
                    [ch :: eow]).flatten = orig ++ eow := by
                  rw [List.flatten_append, flatten_map_singleton]
                  conv_rhs => rw [← hW]
                  simp
                have hnei : ∀ s ∈ orig.dropLast.map (fun c0 => ([c0] : Sym)) ++
                    [ch :: eow], s ≠ [] := by
                  intro s hs
                  rcases List.mem_append.mp hs with h1 | h2
                  · obtain ⟨c0, _, hch⟩ := List.mem_map.mp h1
                    rw [← hch]
                    simp
                  · rw [List.mem_singleton.mp h2]
                    simp
                intro s hs hsuf
                exact mainFinish_clean fuel codes rev vocab sep d _ rng orig out rng'
                  horig hjfl hnei hwf hm s hs hsuf.isInfix
            · rw [if_neg h02] at hm
              cases hm
        | notImpl => rw [hm] at h; cases h
        | indexErr => rw [hm] at h; cases h
        | fuelOut => rw [hm] at h; cases h

/-- `C8` witness: the amended theorem at the marker-free word `"ab"` with
the merge rule `(a, b)` under the legacy convention: the output symbol
`"ab"` does not carry the end marker as a suffix. -/
theorem c8_end_marker_amended_witness :
    List.isSuffixOf eow ['a', 'b'] = false := by
  have h := c8_end_marker_amended 0 "ab".toList [((['a'], ['b']), 0)] [] none sepDefault
    [0, 1] [] none 0 [] [['a', 'b']] [("ab".toList, [['a', 'b']])] [] (by decide)
    (fun k v hctr => by simp [cacheLookup] at hctr)
    (fun k l r hctr => by simp [revLookup] at hctr) (by decide) ['a', 'b']
    (List.mem_singleton.mpr rfl)
  rw [Bool.eq_false_iff]
  intro hb
  exact h (List.isSuffixOf_iff_suffix.mp hb)
